import Mathlib

/-!
Shallow embedding of the merge-conflict engine of `src/main.py`
(classes `GitRepository`, `DiffHighlighter`, `GitMergeApp`).

Python strings are modelled as Lean `String`; the string primitives the
source uses (`str.startswith`, `str.splitlines`, `'\n'.join`) are modelled
as executable functions over `String.data : List Char`, splitting on the
newline character only (the source documents never use other line
terminators).  Python `int` is modelled as `Int` (line indices can be
shifted by a negative delta during rebasing).  Python lists are `List`,
`None`-able fields are `Option`.
-/

/-- Model of Python `s.startswith(p)`. -/
def startswith (s p : String) : Bool := p.data.isPrefixOf s.data

/-- Splits a character sequence at newline characters, Python
`str.splitlines` style: a trailing newline does not produce a final
empty line.  The first argument is recursion fuel: every recursive call
passes a strictly shorter list, so any fuel exceeding the list length
computes the full result; the entry point `linesOf` passes
`length + 1`. -/
def linesOfF : Nat → List Char → List (List Char)
  | 0, _ => []
  | _ + 1, [] => []
  | fuel + 1, c :: cs =>
    let line := (c :: cs).takeWhile (fun ch => ch ≠ '\n')
    match (c :: cs).dropWhile (fun ch => ch ≠ '\n') with
    | [] => [line]
    | _ :: rest' => line :: linesOfF fuel rest'

/-- Splits a character sequence at newline characters. -/
def linesOf (cs : List Char) : List (List Char) := linesOfF (cs.length + 1) cs

/-- Model of Python `content.splitlines()`. -/
def splitlines (s : String) : List String := (linesOf s.data).map (fun cs => String.mk cs)

/-- Model of Python `'\n'.join(lines)`. -/
def joinLines : List String → String
  | [] => ""
  | [s] => s
  | s :: rest => s ++ "\n" ++ joinLines rest

/-- `line.startswith('<<<<<<<')`. -/
def isStartMarker (s : String) : Bool := startswith s "<<<<<<<"

/-- `line.startswith('|||||||')`. -/
def isBaseMarker (s : String) : Bool := startswith s "|||||||"

/-- `line.startswith('=======')`. -/
def isMidMarker (s : String) : Bool := startswith s "======="

/-- `line.startswith('>>>>>>>')`. -/
def isEndMarker (s : String) : Bool := startswith s ">>>>>>>"

/-- Loop guard of the local-content scan: the line is neither a base
separator nor a middle separator. -/
def notSep (s : String) : Bool := !(isBaseMarker s || isMidMarker s)

/-- Loop guard of the base-content scan. -/
def notMid (s : String) : Bool := !isMidMarker s

/-- Loop guard of the remote-content scan. -/
def notEnd (s : String) : Bool := !isEndMarker s

/-- Dataclass `ConflictMarkers` of `src/main.py`.  The Python field `end`
is named `endIdx` (`end` is a Lean keyword); all other field names match
the source.  Line indices are `Int` because coordinate rebasing subtracts
a possibly negative delta. -/
structure ConflictMarkers where
  start : Int
  middle : Int
  endIdx : Int
  base_content : List String
  local_content : List String
  remote_content : List String
  conflict_id : Nat
  is_resolved : Bool := false
  resolved_with : Option String := none
  original_start : Int := 0
  original_end : Int := 0
  resolved_lines : Option (List String) := none
  rejected_lines : Option (List String) := none
deriving DecidableEq, Repr

/-- Region record built at the `conflicts.append(...)` site of
`GitRepository.parse_conflict_markers`. -/
def mkConflict (s m e : Nat) (bse loc rem : List String) (cid : Nat) : ConflictMarkers :=
  { start := (s : Int), middle := (m : Int), endIdx := (e : Int),
    base_content := bse, local_content := loc, remote_content := rem,
    conflict_id := cid }

/-- The scanning loop of `GitRepository.parse_conflict_markers`,
working on the suffix of the line list that starts at absolute line
index `i`.  Each Python `while` loop that accumulates content lines is a
`takeWhile`, and the position the loop stops at is the matching
`dropWhile`.  A partially built region that runs off the end of the text
is discarded, exactly as in the source.  The first argument is recursion
fuel: every recursive call passes a strictly shorter line list, so any
fuel exceeding the list length computes the loop's full result; the
entry point passes `length + 1`. -/
def parseFrom : Nat → Nat → List String → Nat → List ConflictMarkers
  | 0, _, _, _ => []
  | _ + 1, _, [], _ => []
  | fuel + 1, cid, l :: ls, i =>
    if isStartMarker l then
      let loc := ls.takeWhile notSep
      let i1 := i + 1 + loc.length
      match ls.dropWhile notSep with
      | [] => []
      | s1 :: rest1 =>
        if isBaseMarker s1 then
          let bse := rest1.takeWhile notMid
          let i2 := i1 + 1 + bse.length
          match rest1.dropWhile notMid with
          | [] => []
          | s2 :: rest2 =>
            if isMidMarker s2 then
              let rem := rest2.takeWhile notEnd
              let iEnd := i2 + 1 + rem.length
              match rest2.dropWhile notEnd with
              | [] => []
              | s3 :: rest3 =>
                if isEndMarker s3 then
                  mkConflict i i2 iEnd bse loc rem cid
                    :: parseFrom fuel (cid + 1) rest3 (iEnd + 1)
                else parseFrom fuel cid rest3 (iEnd + 1)
            else parseFrom fuel cid rest2 (i2 + 1)
        else if isMidMarker s1 then
          let rem := rest1.takeWhile notEnd
          let iEnd := i1 + 1 + rem.length
          match rest1.dropWhile notEnd with
          | [] => []
          | s3 :: rest3 =>
            if isEndMarker s3 then
              mkConflict i i1 iEnd [] loc rem cid
                :: parseFrom fuel (cid + 1) rest3 (iEnd + 1)
            else parseFrom fuel cid rest3 (iEnd + 1)
        else parseFrom fuel cid rest1 (i1 + 1)
    else parseFrom fuel cid ls (i + 1)

/-- `GitRepository.parse_conflict_markers`. -/
def parse_conflict_markers (content : String) : List ConflictMarkers :=
  parseFrom ((splitlines content).length + 1) 0 (splitlines content) 0

/-! ## Diff engine (`DiffHighlighter`)

The source calls Python's `difflib.unified_diff`, which computes a
longest-common-subsequence line diff, groups the changes into hunks with
`n` lines of context, and renders `--- `/`+++ ` file headers (only when at
least one hunk exists, because the generator emits them lazily), one
`@@ -i,m +j,n @@` header per hunk, and one prefixed line (` `, `-`, `+`)
per diffed line.  That library behaviour is modelled here by an
executable LCS diff over `List String`. -/

/-- One line of an LCS diff script: kept in both sequences, deleted from
the old sequence, or inserted by the new sequence. -/
inductive DiffOp where
  | keep : String → DiffOp
  | del : String → DiffOp
  | ins : String → DiffOp
deriving DecidableEq, Repr

/-- Whether a diff op is an unchanged (context) line. -/
def DiffOp.isKeep : DiffOp → Bool
  | DiffOp.keep _ => true
  | _ => false

/-- Number of unchanged lines in a diff script (the quantity an LCS diff
maximises). -/
def countKeeps (ops : List DiffOp) : Nat := (ops.filter DiffOp.isKeep).length

/-- Longest-common-subsequence diff script from `as` (old) to `bs`
(new); models the matching behaviour of `difflib.SequenceMatcher`. -/
def lcsOps : List String → List String → List DiffOp
  | [], bs => bs.map DiffOp.ins
  | a :: as, [] => DiffOp.del a :: lcsOps as []
  | a :: as, b :: bs =>
    if a = b then DiffOp.keep a :: lcsOps as bs
    else
      let viaDel := DiffOp.del a :: lcsOps as (b :: bs)
      let viaIns := DiffOp.ins b :: lcsOps (a :: as) bs
      if countKeeps viaDel < countKeeps viaIns then viaIns else viaDel
  termination_by as bs => as.length + bs.length
  decreasing_by all_goals (simp only [List.length_cons]; omega)

/-- Length of the leading run of `keep` ops. -/
def keepRun : List DiffOp → Nat
  | DiffOp.keep _ :: rest => keepRun rest + 1
  | _ => 0

/-- Number of old-sequence lines and new-sequence lines covered by a
hunk's ops (a `keep` advances both sides). -/
def opSizes (ops : List DiffOp) : Nat × Nat :=
  ops.foldl
    (fun p op =>
      match op with
      | DiffOp.keep _ => (p.1 + 1, p.2 + 1)
      | DiffOp.del _ => (p.1 + 1, p.2)
      | DiffOp.ins _ => (p.1, p.2 + 1))
    (0, 0)

/-- `difflib._format_range_unified`: 1-based start, length elided when 1,
start not advanced when the range is empty. -/
def formatRange (start len : Nat) : String :=
  if len = 1 then toString (start + 1)
  else toString (if len = 0 then start else start + 1) ++ "," ++ toString len

/-- Collects the ops of one hunk from a stream whose head is within the
hunk, keeping runs of context no longer than `2 * n` inside the hunk and
at most `n` context lines at its end.  Returns the hunk's ops and the
unconsumed rest; `fuel` bounds the recursion by the stream length. -/
def takeHunk (n : Nat) : Nat → List DiffOp → List DiffOp × List DiffOp
  | 0, ops => ([], ops)
  | _ + 1, [] => ([], [])
  | fuel + 1, op :: rest =>
    if op.isKeep then
      let run := keepRun (op :: rest)
      let after := (op :: rest).drop run
      if after.isEmpty then ((op :: rest).take (min n run), (op :: rest).drop (min n run))
      else if run ≤ 2 * n then
        let t := takeHunk n fuel after
        ((op :: rest).take run ++ t.1, t.2)
      else ((op :: rest).take n, (op :: rest).drop n)
    else
      let t := takeHunk n fuel rest
      (op :: t.1, t.2)

/-- Groups a diff script into hunks with `n` context lines, tracking the
old-sequence position `i` and new-sequence position `j` of each hunk's
first op; models `difflib.SequenceMatcher.get_grouped_opcodes`.  `fuel`
bounds the recursion by the stream length. -/
def buildHunks (n : Nat) : Nat → Nat → Nat → List DiffOp → List (Nat × Nat × List DiffOp)
  | 0, _, _, _ => []
  | _ + 1, _, _, [] => []
  | fuel + 1, i, j, ops =>
    let run := keepRun ops
    if run = ops.length then []
    else
      let skip := run - min run n
      let rest := ops.drop skip
      let t := takeHunk n rest.length rest
      let sz := opSizes t.1
      (i + skip, j + skip, t.1) :: buildHunks n fuel (i + skip + sz.1) (j + skip + sz.2) t.2

/-- Rendering of one diff line inside a hunk, with the unified-diff
one-character prefix. -/
def opLine : DiffOp → String
  | DiffOp.keep s => " " ++ s
  | DiffOp.del s => "-" ++ s
  | DiffOp.ins s => "+" ++ s

/-- Rendering of one hunk: `@@` header then prefixed lines. -/
def renderHunk (h : Nat × Nat × List DiffOp) : List String :=
  ("@@ -" ++ formatRange h.1 (opSizes h.2.2).1 ++ " +" ++ formatRange h.2.1 (opSizes h.2.2).2
      ++ " @@")
    :: h.2.2.map opLine

/-- Model of `difflib.unified_diff(a, b, lineterm='', n=n)` (with the
default empty file labels): no output at all when the sequences have no
difference, otherwise the two file-header lines followed by the rendered
hunks. -/
def unified_diff (a b : List String) (n : Nat) : List String :=
  let ops := lcsOps a b
  let hunks := buildHunks n ops.length 0 0 ops
  if hunks.isEmpty then []
  else "--- " :: "+++ " :: (hunks.map renderHunk).flatten

/-- Dataclass `DiffHighlight` of `src/main.py`.  `start_line` is `Int`
because `current_line` in `generate_line_diff` starts from a parsed hunk
position minus one. -/
structure DiffHighlight where
  start_line : Int
  end_line : Int
  highlight_type : String
  content : List String
deriving DecidableEq, Repr

/-- The `re.search(r'-(\d+)(?:,(\d+))? \+(\d+)(?:,(\d+))?', line)` match of
`generate_line_diff`, reduced to the one captured group the source uses:
the digits following `" +"` (the new-file hunk start). -/
def parseNewStart (line : String) : Option Nat :=
  match line.splitOn " +" with
  | _ :: second :: _ =>
    let ds := second.takeWhile Char.isDigit
    if ds.isEmpty then none else ds.toNat?
  | _ => none

/-- One iteration of the `for line in diff_lines` loop of
`DiffHighlighter.generate_line_diff`; the accumulator is
`(current_line, highlights)`. -/
def gldStep (acc : Int × List DiffHighlight) (line : String) : Int × List DiffHighlight :=
  if startswith line "@@" then
    match parseNewStart line with
    | some g3 => ((g3 : Int) - 1, acc.2)
    | none => acc
  else if startswith line "-" then
    (acc.1, acc.2 ++ [{ start_line := acc.1, end_line := acc.1 + 1, highlight_type := "removed",
                        content := [line.drop 1] }])
  else if startswith line "+" then
    (acc.1 + 1, acc.2 ++ [{ start_line := acc.1, end_line := acc.1 + 1,
                            highlight_type := "added", content := [line.drop 1] }])
  else if !startswith line "@@" && !startswith line "\\" then
    (acc.1 + 1, acc.2)
  else acc

/-- `DiffHighlighter.generate_line_diff`. -/
def generate_line_diff (chosen_lines rejected_lines : List String) : List DiffHighlight :=
  if chosen_lines.isEmpty && rejected_lines.isEmpty then []
  else ((unified_diff rejected_lines chosen_lines 0).foldl gldStep (0, [])).2

/-- One iteration of the `for line in differ` loop of
`DiffHighlighter.create_rejection_preview`; the accumulator is
`(in_diff, preview_lines)`. -/
def crpStep (acc : Bool × List String) (line : String) : Bool × List String :=
  if startswith line "@@" then (true, acc.2 ++ ["// " ++ line])
  else if startswith line "-" then (acc.1, acc.2 ++ ["// CHOSEN:   " ++ line.drop 1])
  else if startswith line "+" then (acc.1, acc.2 ++ ["// REJECTED: " ++ line.drop 1])
  else if startswith line " " && acc.1 then (acc.1, acc.2 ++ ["//          " ++ line.drop 1])
  else acc

/-- The `preview_lines` accumulated between the header and footer of
`create_rejection_preview` (the not-identical branch). -/
def crpDiffLines (diffLines : List String) : List String :=
  (diffLines.foldl crpStep (false, [])).2

/-- Body lines of the preview: the `(Identical to chosen content)` block
when the two sides are equal, otherwise the labelled diff. -/
def crpBody (chosen_content rejected_content : List String) : List String :=
  if chosen_content = rejected_content then
    "// (Identical to chosen content)" :: rejected_content.map (fun line => "// " ++ line)
  else crpDiffLines (unified_diff chosen_content rejected_content 1)

/-- `DiffHighlighter.create_rejection_preview`. -/
def create_rejection_preview (chosen_content rejected_content : List String) : String :=
  if rejected_content.isEmpty then "// No alternative content to show"
  else
    joinLines
      (("// ===== REJECTED ALTERNATIVE =====" :: crpBody chosen_content rejected_content)
        ++ ["// ===== END REJECTED ====="])

/-! ## Application state (`GitMergeApp`)

The modelled state is the domain part of `GitMergeApp`: the pristine file
snapshot, the two region lists, the working-copy text (the `local_text`
widget value, which is the Document every resolution splices into) and
the selected region index.  Display-only widgets, the file list and the
external git collaborators are outside every claim and are not
modelled. -/

structure AppState where
  original_content : String := ""
  current_conflicts : List ConflictMarkers := []
  original_conflicts : List ConflictMarkers := []
  local_text : String := ""
  selected_conflict_index : Int := -1
deriving DecidableEq, Repr

/-- The `chosen_content` selection of `GitMergeApp._resolve_single_conflict`
(`if resolution == 'local' ... elif 'remote' ... else base`). -/
def chosen_for (conflict : ConflictMarkers) (resolution : String) : List String :=
  if resolution = "local" then conflict.local_content
  else if resolution = "remote" then conflict.remote_content
  else conflict.base_content

/-- The `rejected_content` selection of
`GitMergeApp._resolve_single_conflict`. -/
def rejected_for (conflict : ConflictMarkers) (resolution : String) : List String :=
  if resolution = "local" then conflict.remote_content
  else if resolution = "remote" then conflict.local_content
  else conflict.local_content ++ conflict.remote_content

/-- `GitMergeApp._update_working_copy_with_resolution`: splice the chosen
lines over the resolved region's `start..end` span of the working copy
and shift every other region that starts after the resolved region's end
down by the net removed line count (which may be negative).  The indices
are nonnegative whenever this runs on a state built by parsing, so the
`toNat` coercions are exact. -/
def update_working_copy_with_resolution (st : AppState) (conflict : ConflictMarkers)
    (chosen_content : List String) : AppState :=
  let lines := splitlines st.local_text
  let new_lines :=
    lines.take conflict.start.toNat ++ chosen_content ++ lines.drop (conflict.endIdx.toNat + 1)
  let lines_removed : Int := (conflict.endIdx - conflict.start + 1) - (chosen_content.length : Int)
  { st with
    current_conflicts := st.current_conflicts.map (fun oc =>
      if oc.conflict_id ≠ conflict.conflict_id ∧ oc.start > conflict.endIdx then
        { oc with start := oc.start - lines_removed, middle := oc.middle - lines_removed,
                  endIdx := oc.endIdx - lines_removed }
      else oc),
    local_text := joinLines new_lines }

/-- `GitMergeApp._resolve_single_conflict` applied to the region at list
position `idx` (the Python method receives the region object, which is
the `idx`-th element of `current_conflicts`); a position with no region
is a no-op. -/
def resolve_single_conflict (st : AppState) (idx : Nat) (resolution : String) : AppState :=
  match st.current_conflicts[idx]? with
  | none => st
  | some conflict =>
    let chosen_content := chosen_for conflict resolution
    let rejected_content := rejected_for conflict resolution
    let resolved :=
      { conflict with is_resolved := true, resolved_with := some resolution,
                      resolved_lines := some chosen_content,
                      rejected_lines := some rejected_content }
    update_working_copy_with_resolution
      { st with current_conflicts := st.current_conflicts.set idx resolved }
      resolved chosen_content

/-- `GitMergeApp.load_conflicted_file` for a file whose on-disk bytes are
`content`: parse the working copy, snapshot it together with a deep copy
of the fresh region list, and select the first conflict when one
exists. -/
def load_conflicted_file (content : String) : AppState :=
  let conflicts := parse_conflict_markers content
  { original_content := content,
    current_conflicts := conflicts,
    original_conflicts :=
      conflicts.map (fun c => { c with original_start := c.start, original_end := c.endIdx }),
    local_text := content,
    selected_conflict_index := if conflicts.isEmpty then -1 else 0 }

/-- `GitMergeApp.revert_conflict` for a loaded file whose on-disk bytes
are `disk` (resolutions only rewrite the widget text, never the file, so
the reload reads the bytes the file had when it was loaded): with a
valid selection it discards the mutated state and reloads; otherwise it
is a no-op. -/
def revert_conflict (disk : String) (st : AppState) : AppState :=
  if 0 ≤ st.selected_conflict_index
      ∧ st.selected_conflict_index < (st.current_conflicts.length : Int) then
    load_conflicted_file disk
  else st

/-- `GitMergeApp.accept_local_conflict`. -/
def accept_local_conflict (st : AppState) : AppState :=
  if 0 ≤ st.selected_conflict_index
      ∧ st.selected_conflict_index < (st.current_conflicts.length : Int) then
    resolve_single_conflict st st.selected_conflict_index.toNat "local"
  else st

/-- `GitMergeApp.accept_remote_conflict`. -/
def accept_remote_conflict (st : AppState) : AppState :=
  if 0 ≤ st.selected_conflict_index
      ∧ st.selected_conflict_index < (st.current_conflicts.length : Int) then
    resolve_single_conflict st st.selected_conflict_index.toNat "remote"
  else st

/-- `GitMergeApp.accept_base_conflict`. -/
def accept_base_conflict (st : AppState) : AppState :=
  if 0 ≤ st.selected_conflict_index
      ∧ st.selected_conflict_index < (st.current_conflicts.length : Int) then
    resolve_single_conflict st st.selected_conflict_index.toNat "base"
  else st

/-- One iteration of the `for conflict in self.current_conflicts` loop of
`GitMergeApp.resolve_with_version`: position `k` of the evolving list is
examined and resolved unless already resolved. -/
def resolveStep (version : String) (s : AppState) (k : Nat) : AppState :=
  match s.current_conflicts[k]? with
  | some c => if c.is_resolved then s else resolve_single_conflict s k version
  | none => s

/-- `GitMergeApp.resolve_with_version`: resolve every currently
unresolved region, visiting list positions in order. -/
def resolve_with_version (version : String) (st : AppState) : AppState :=
  if st.current_conflicts.isEmpty then st
  else (List.range st.current_conflicts.length).foldl (resolveStep version) st

/-! ## Specification-side vocabulary

`RegionsChained` captures the coordinate discipline the parser
establishes; `RawBlock`/`renderDoc`/`expectedRegions` describe a
well-formed conflict document and the region list the spec promises for
it. -/

/-- All regions of the list lie at or after line `lo`, each has
`start < middle < end`, is freshly unresolved, and ends strictly before
the next one starts. -/
def RegionsChained : Int → List ConflictMarkers → Prop
  | _, [] => True
  | lo, c :: rest =>
    lo ≤ c.start ∧ c.start < c.middle ∧ c.middle < c.endIdx ∧ c.is_resolved = false
      ∧ RegionsChained (c.endIdx + 1) rest

/-- One well-formed conflict block of the marker text format: the three
(or four) marker lines and the captured content line lists. -/
structure RawBlock where
  startLine : String
  localLines : List String
  baseSec : Option (String × List String)
  midLine : String
  remoteLines : List String
  endLine : String

/-- Well-formedness of a block: marker lines carry their 7-character
prefixes and content lines do not fake the separator that would end
their section early. -/
def RawBlock.wf (b : RawBlock) : Prop :=
  isStartMarker b.startLine = true
    ∧ isMidMarker b.midLine = true ∧ isBaseMarker b.midLine = false
    ∧ isEndMarker b.endLine = true
    ∧ (∀ l ∈ b.localLines, isBaseMarker l = false ∧ isMidMarker l = false)
    ∧ (match b.baseSec with
       | some (bl, bs) => isBaseMarker bl = true ∧ ∀ l ∈ bs, isMidMarker l = false
       | none => True)
    ∧ (∀ l ∈ b.remoteLines, isEndMarker l = false)

/-- The lines a block occupies in the document. -/
def RawBlock.render (b : RawBlock) : List String :=
  b.startLine :: b.localLines
    ++ (match b.baseSec with | some (bl, bs) => bl :: bs | none => [])
    ++ b.midLine :: b.remoteLines ++ [b.endLine]

/-- Number of lines of the optional base section (its marker line plus
its content). -/
def RawBlock.baseLen (b : RawBlock) : Nat :=
  match b.baseSec with
  | some (_, bs) => 1 + bs.length
  | none => 0

/-- The captured base content of a block (empty when absent). -/
def RawBlock.baseContent (b : RawBlock) : List String :=
  match b.baseSec with
  | some (_, bs) => bs
  | none => []

/-- A document as interleaving: before each block a gap of plain lines,
and a trailing remainder after the last block. -/
def renderDoc : List (List String × RawBlock) → List String → List String
  | [], trail => trail
  | (gap, b) :: rest, trail => gap ++ b.render ++ renderDoc rest trail

/-- The region list the specification promises for a well-formed
document whose first unconsumed line has index `i`: one region per
block, in document order, with sequential ids from `cid` and marker
indices computed from the layout. -/
def expectedRegions : Nat → Nat → List (List String × RawBlock) → List ConflictMarkers
  | _, _, [] => []
  | i, cid, (gap, b) :: rest =>
    let s := i + gap.length
    let m := s + 1 + b.localLines.length + b.baseLen
    let e := m + 1 + b.remoteLines.length
    mkConflict s m e b.baseContent b.localLines b.remoteLines cid
      :: expectedRegions (e + 1) (cid + 1) rest

/-! ## Concrete sample data for witnesses -/

/-- A two-conflict document (regions at lines 0–4 and 6–10). -/
def sampleDoc : String :=
  "<<<<<<< HEAD\na\n=======\nb\n>>>>>>> branch\nmid\n<<<<<<< HEAD\nc\n=======\nd\n>>>>>>> branch"

/-- The application state right after loading `sampleDoc`. -/
def sampleState : AppState := load_conflicted_file sampleDoc

/-- A one-conflict document with a base section. -/
def sampleDocBase : String :=
  "x\n<<<<<<< HEAD\na\n||||||| base\no\n=======\nb\n>>>>>>> branch"

/-- A state whose selection index refers to no region. -/
def staleState : AppState :=
  { original_content := "hello", current_conflicts := [], original_conflicts := [],
    local_text := "hello", selected_conflict_index := 0 }

/-! ## Helper lemmas about a single resolution -/

theorem resolve_single_length (st : AppState) (idx : Nat) (res : String) :
    (resolve_single_conflict st idx res).current_conflicts.length
      = st.current_conflicts.length := by
  cases hc : st.current_conflicts[idx]? <;>
    simp [resolve_single_conflict, update_working_copy_with_resolution, hc]

theorem resolve_single_selected (st : AppState) (idx : Nat) (res : String) :
    (resolve_single_conflict st idx res).selected_conflict_index
      = st.selected_conflict_index := by
  cases hc : st.current_conflicts[idx]? <;>
    simp [resolve_single_conflict, update_working_copy_with_resolution, hc]

/-- After resolving the region at `idx`, position `idx` holds the marked
region: chosen and rejected lines recorded, coordinates untouched. -/
theorem resolve_single_getElem_self (st : AppState) (idx : Nat) (res : String)
    (c : ConflictMarkers) (hc : st.current_conflicts[idx]? = some c) :
    (resolve_single_conflict st idx res).current_conflicts[idx]?
      = some { c with is_resolved := true, resolved_with := some res,
                      resolved_lines := some (chosen_for c res),
                      rejected_lines := some (rejected_for c res) } := by
  have hlt : idx < st.current_conflicts.length := by
    rcases List.getElem?_eq_some.mp hc with ⟨h, _⟩
    exact h
  simp only [resolve_single_conflict, update_working_copy_with_resolution, hc]
  simp [List.getElem?_map, List.getElem?_set, hlt]

/-- After resolving the region at `idx`, any other position holds its old
region, rebased when and only when the source's guard
(`id` differs and `start > resolved end`) holds. -/
theorem resolve_single_getElem_other (st : AppState) (idx : Nat) (res : String)
    (c : ConflictMarkers) (hc : st.current_conflicts[idx]? = some c)
    (j : Nat) (cj : ConflictMarkers) (hj : st.current_conflicts[j]? = some cj)
    (hne : j ≠ idx) :
    (resolve_single_conflict st idx res).current_conflicts[j]?
      = some (if cj.conflict_id ≠ c.conflict_id ∧ cj.start > c.endIdx then
          { cj with
            start := cj.start - ((c.endIdx - c.start + 1) - ((chosen_for c res).length : Int)),
            middle := cj.middle - ((c.endIdx - c.start + 1) - ((chosen_for c res).length : Int)),
            endIdx := cj.endIdx - ((c.endIdx - c.start + 1) - ((chosen_for c res).length : Int)) }
        else cj) := by
  simp only [resolve_single_conflict, update_working_copy_with_resolution, hc]
  simp [List.getElem?_map, List.getElem?_set, (Ne.symm hne), hj]

/-! ## Claims -/

/-- C10: for every chosen line list, `create_rejection_preview` with an
empty rejected list returns the fixed no-alternative string — the
identical-content and diff branches are never entered, even when chosen
equals rejected because both are empty. -/
theorem claim_C10_empty_rejected_fixed_string (chosen : List String) :
    create_rejection_preview chosen [] = "// No alternative content to show" := rfl

/-- C9: invoking resolve (any variant) or revert while the selection
does not refer to a region of the current store is a no-op: the whole
application state, hence the Document and every region, is unchanged,
and the operations are total. -/
theorem claim_C9_invalid_selection_noop (st : AppState) (disk : String)
    (h : ¬ (0 ≤ st.selected_conflict_index
          ∧ st.selected_conflict_index < (st.current_conflicts.length : Int))) :
    accept_local_conflict st = st ∧ accept_remote_conflict st = st
      ∧ accept_base_conflict st = st ∧ revert_conflict disk st = st := by
  refine ⟨?_, ?_, ?_, ?_⟩ <;>
    simp [accept_local_conflict, accept_remote_conflict, accept_base_conflict,
      revert_conflict, h]

theorem claim_C9_invalid_selection_noop_witness :
    (¬ (0 ≤ staleState.selected_conflict_index
          ∧ staleState.selected_conflict_index < (staleState.current_conflicts.length : Int)))
      ∧ (accept_local_conflict staleState = staleState
          ∧ accept_remote_conflict staleState = staleState
          ∧ accept_base_conflict staleState = staleState
          ∧ revert_conflict "hello" staleState = staleState) :=
  ⟨by decide, claim_C9_invalid_selection_noop staleState "hello" (by decide)⟩

/-- C5, counterexample: with both line lists empty the two arguments are
equal, yet the preview is the fixed no-alternative string and contains
no identical-content annotation line. -/
theorem claim_C5_counterexample :
    create_rejection_preview [] [] = "// No alternative content to show"
      ∧ ¬ ("// (Identical to chosen content)"
            ∈ splitlines (create_rejection_preview [] [])) := by
  exact ⟨rfl, by decide⟩

/-- C5, amended: for equal chosen and rejected line lists the preview
reports `(Identical to chosen content)` — provided the lists are
nonempty; with both empty the early-return produces the fixed
no-alternative string instead (see the counterexample and C10). -/
theorem claim_C5_identical_nonempty (x : List String) (h : x ≠ []) :
    create_rejection_preview x x
      = joinLines (("// ===== REJECTED ALTERNATIVE ====="
            :: "// (Identical to chosen content)" :: x.map (fun line => "// " ++ line))
          ++ ["// ===== END REJECTED ====="]) := by
  simp [create_rejection_preview, crpBody, h]

theorem claim_C5_identical_nonempty_witness :
    ((["a"] : List String) ≠ [])
      ∧ create_rejection_preview ["a"] ["a"]
          = joinLines (("// ===== REJECTED ALTERNATIVE ====="
                :: "// (Identical to chosen content)"
                :: (["a"] : List String).map (fun line => "// " ++ line))
              ++ ["// ===== END REJECTED ====="]) :=
  ⟨by decide, claim_C5_identical_nonempty ["a"] (by decide)⟩

/-- C3: resolving any region of a freshly loaded document with any
variant and then reverting restores the application state — in
particular the Document text — byte-identically to the pre-resolution
snapshot; revert is a full reload and re-parse of the original source,
not a point patch (resolution never writes the file, so the reload sees
the loaded bytes). -/
theorem claim_C3_resolve_then_revert (content : String) (idx : Nat) (res : String) :
    revert_conflict content (resolve_single_conflict (load_conflicted_file content) idx res)
      = load_conflicted_file content := by
  by_cases hempty : (parse_conflict_markers content).isEmpty
  · have hsel : (load_conflicted_file content).selected_conflict_index = -1 := by
      simp [load_conflicted_file, hempty]
    have hnone : (load_conflicted_file content).current_conflicts[idx]? = none := by
      simp [load_conflicted_file]
      simp [List.isEmpty_iff] at hempty
      simp [hempty]
    rw [show resolve_single_conflict (load_conflicted_file content) idx res
          = load_conflicted_file content by
        simp [resolve_single_conflict, hnone]]
    simp [revert_conflict, hsel]
  · have hsel : (load_conflicted_file content).selected_conflict_index = 0 := by
      simp [load_conflicted_file, hempty]
    have hlen : 0 < (parse_conflict_markers content).length := by
      simp [List.isEmpty_iff, ← List.length_pos_iff_ne_nil] at hempty
      exact hempty
    have hsel' : (resolve_single_conflict (load_conflicted_file content) idx
        res).selected_conflict_index = 0 := by
      rw [resolve_single_selected, hsel]
    have hlen' : (resolve_single_conflict (load_conflicted_file content) idx
        res).current_conflicts.length = (parse_conflict_markers content).length := by
      rw [resolve_single_length]
      simp [load_conflicted_file]
    have hcond : 0 ≤ (resolve_single_conflict (load_conflicted_file content) idx
          res).selected_conflict_index
        ∧ (resolve_single_conflict (load_conflicted_file content) idx
            res).selected_conflict_index
          < (((resolve_single_conflict (load_conflicted_file content) idx
              res).current_conflicts.length : Int)) := by
      rw [hsel', hlen']
      exact ⟨le_refl 0, by exact_mod_cast hlen⟩
    simp [revert_conflict, hcond]

/-- C6: resolving with Local records the remote candidate as rejected,
resolving with Remote records the local candidate as rejected, and
resolving with Base records the (possibly empty) base lines as chosen
and the local lines followed by the remote lines as rejected. -/
theorem claim_C6_chosen_and_rejected (st : AppState) (idx : Nat) (c : ConflictMarkers)
    (hc : st.current_conflicts[idx]? = some c) :
    (resolve_single_conflict st idx "local").current_conflicts[idx]?
        = some { c with is_resolved := true, resolved_with := some "local",
                        resolved_lines := some c.local_content,
                        rejected_lines := some c.remote_content }
      ∧ (resolve_single_conflict st idx "remote").current_conflicts[idx]?
          = some { c with is_resolved := true, resolved_with := some "remote",
                          resolved_lines := some c.remote_content,
                          rejected_lines := some c.local_content }
      ∧ (resolve_single_conflict st idx "base").current_conflicts[idx]?
          = some { c with is_resolved := true, resolved_with := some "base",
                          resolved_lines := some c.base_content,
                          rejected_lines := some (c.local_content ++ c.remote_content) } := by
  refine ⟨?_, ?_, ?_⟩ <;>
    rw [resolve_single_getElem_self st idx _ c hc] <;>
    simp +decide [chosen_for, rejected_for]

theorem claim_C6_chosen_and_rejected_witness :
    sampleState.current_conflicts[0]?
        = some { start := 0, middle := 2, endIdx := 4, base_content := [],
                 local_content := ["a"], remote_content := ["b"], conflict_id := 0 }
      ∧ (resolve_single_conflict sampleState 0 "base").current_conflicts[0]?
          = some { start := 0, middle := 2, endIdx := 4, base_content := [],
                   local_content := ["a"], remote_content := ["b"], conflict_id := 0,
                   is_resolved := true, resolved_with := some "base",
                   resolved_lines := some [], rejected_lines := some ["a", "b"] } :=
  ⟨by decide,
    by
      have h := (claim_C6_chosen_and_rejected sampleState 0
        { start := 0, middle := 2, endIdx := 4, base_content := [],
          local_content := ["a"], remote_content := ["b"], conflict_id := 0 }
        (by decide)).2.2
      simpa using h⟩

/-- C1: resolving the region at `idx` (any variant) shifts every other
region that starts after the resolved region's end down by exactly
`(end - start + 1) - len(chosenLines)` on each of its `start`, `middle`
and `end` fields (the delta may be negative), and leaves every region
that starts before the resolved region's start completely unchanged. -/
theorem claim_C1_rebase_after_resolution (st : AppState) (idx : Nat) (res : String)
    (c : ConflictMarkers) (hc : st.current_conflicts[idx]? = some c)
    (hse : c.start ≤ c.endIdx)
    (j : Nat) (cj : ConflictMarkers) (hj : st.current_conflicts[j]? = some cj) :
    (cj.conflict_id ≠ c.conflict_id → cj.start > c.endIdx →
        (resolve_single_conflict st idx res).current_conflicts[j]?
          = some { cj with
              start := cj.start
                - ((c.endIdx - c.start + 1) - ((chosen_for c res).length : Int)),
              middle := cj.middle
                - ((c.endIdx - c.start + 1) - ((chosen_for c res).length : Int)),
              endIdx := cj.endIdx
                - ((c.endIdx - c.start + 1) - ((chosen_for c res).length : Int)) })
      ∧ (cj.start < c.start →
          (resolve_single_conflict st idx res).current_conflicts[j]? = some cj) := by
  constructor
  · intro hid hafter
    have hne : j ≠ idx := by
      intro h
      rw [h, hc] at hj
      exact hid (by rw [Option.some_inj.mp hj])
    rw [resolve_single_getElem_other st idx res c hc j cj hj hne]
    rw [if_pos ⟨hid, hafter⟩]
  · intro hbefore
    have hne : j ≠ idx := by
      intro h
      rw [h, hc] at hj
      rw [Option.some_inj.mp hj] at hbefore
      exact absurd hbefore (lt_irrefl _)
    rw [resolve_single_getElem_other st idx res c hc j cj hj hne]
    rw [if_neg]
    intro hcond
    have : cj.start ≤ c.endIdx := le_trans (le_of_lt hbefore) hse
    exact absurd hcond.2 (not_lt.mpr this)

theorem claim_C1_rebase_after_resolution_witness :
    sampleState.current_conflicts[0]?
        = some { start := 0, middle := 2, endIdx := 4, base_content := [],
                 local_content := ["a"], remote_content := ["b"], conflict_id := 0 }
      ∧ (resolve_single_conflict sampleState 0 "local").current_conflicts[1]?
          = some { start := 2, middle := 4, endIdx := 6, base_content := [],
                   local_content := ["c"], remote_content := ["d"], conflict_id := 1 } :=
  ⟨by decide,
    by
      have h := (claim_C1_rebase_after_resolution sampleState 0 "local"
        { start := 0, middle := 2, endIdx := 4, base_content := [],
          local_content := ["a"], remote_content := ["b"], conflict_id := 0 }
        (by decide) (by decide) 1
        { start := 6, middle := 8, endIdx := 10, base_content := [],
          local_content := ["c"], remote_content := ["d"], conflict_id := 1 }
        (by decide)).1 (by decide) (by decide)
      simpa [chosen_for] using h⟩

/-! ## Diff identity law -/

theorem lcsOps_self (x : List String) : lcsOps x x = x.map DiffOp.keep := by
  induction x with
  | nil => simp [lcsOps]
  | cons a rest ih => simp [lcsOps, ih]

theorem keepRun_map_keep (x : List String) :
    keepRun (x.map DiffOp.keep) = x.length := by
  induction x with
  | nil => simp [keepRun]
  | cons a rest ih => simp [keepRun, ih]

theorem buildHunks_all_keep (n fuel i j : Nat) (x : List String) :
    buildHunks n fuel i j (x.map DiffOp.keep) = [] := by
  cases fuel with
  | zero => simp [buildHunks]
  | succ f =>
    cases x with
    | nil => simp [buildHunks]
    | cons a rest =>
      simp [buildHunks, keepRun, keepRun_map_keep]

theorem unified_diff_self (x : List String) (n : Nat) : unified_diff x x n = [] := by
  simp [unified_diff, lcsOps_self, buildHunks_all_keep]

/-- C7: the line-diff highlighter satisfies the identity law — equal
chosen and rejected line lists always produce an empty highlight
list. -/
theorem claim_C7_line_diff_identity (x : List String) : generate_line_diff x x = [] := by
  cases x with
  | nil => rfl
  | cons a rest =>
    rw [generate_line_diff]
    rw [if_neg (by simp)]
    rw [unified_diff_self]
    rfl

/-! ## Parser invariants -/

theorem RegionsChained.mono {lo lo' : Int} {l : List ConflictMarkers}
    (hle : lo' ≤ lo) (h : RegionsChained lo l) : RegionsChained lo' l := by
  cases l with
  | nil => trivial
  | cons c rest =>
    obtain ⟨h1, h2⟩ := h
    exact ⟨le_trans hle h1, h2⟩

/-- Every region list the parser scan produces is chained starting at the
scan position. -/
theorem parseFrom_chained (fuel cid : Nat) (ls : List String) (i : Nat) :
    RegionsChained (i : Int) (parseFrom fuel cid ls i) := by
  induction fuel, cid, ls, i using parseFrom.induct <;>
    simp only [parseFrom, RegionsChained, *, if_true, if_false, Bool.false_eq_true,
      Bool.true_eq_false, ite_true, ite_false] <;>
    try trivial
  all_goals try
    refine ⟨by simp +zetaDelta [mkConflict] <;> omega,
      by simp +zetaDelta [mkConflict] <;> omega,
      by simp +zetaDelta [mkConflict] <;> omega,
      by simp [mkConflict], ?_⟩
  all_goals refine RegionsChained.mono ?_ (by assumption)
  all_goals (simp +zetaDelta [mkConflict] <;> omega)

/-- Every member of a chained list respects the per-region ordering and
lower bound and is unresolved. -/
theorem RegionsChained.mem {lo : Int} {l : List ConflictMarkers}
    (h : RegionsChained lo l) :
    ∀ r ∈ l, lo ≤ r.start ∧ r.start < r.middle ∧ r.middle < r.endIdx
      ∧ r.is_resolved = false := by
  induction l generalizing lo with
  | nil => intro r hr; cases hr
  | cons c rest ih =>
    obtain ⟨h1, h2, h3, h4, h5⟩ := h
    intro r hr
    cases hr with
    | head => exact ⟨h1, h2, h3, h4⟩
    | tail _ hr' =>
      have := ih h5 r hr'
      refine ⟨le_trans ?_ this.1, this.2⟩
      omega

/-- A chained list is sorted by `start` with pairwise disjoint spans. -/
theorem RegionsChained.pairwise {lo : Int} {l : List ConflictMarkers}
    (h : RegionsChained lo l) :
    List.Pairwise (fun a b => a.start < b.start ∧ a.endIdx < b.start) l := by
  induction l generalizing lo with
  | nil => exact List.Pairwise.nil
  | cons c rest ih =>
    obtain ⟨h1, h2, h3, h4, h5⟩ := h
    refine List.Pairwise.cons ?_ (ih h5)
    intro b hb
    have hball := RegionsChained.mem h5 b hb
    constructor
    · omega
    · omega

/-- C8: every region list produced by the parser satisfies the region
invariants: the list is sorted by `start` and pairwise non-overlapping
(each region ends strictly before the next starts), and each region has
`start < separatorMiddle < end`.  (The parsed records carry no base
separator index — `ConflictMarkers` has no such field — so the base
separator clause of the invariant has nothing to constrain.) -/
theorem claim_C8_parse_invariants (content : String) :
    List.Pairwise (fun a b => a.start < b.start ∧ a.endIdx < b.start)
        (parse_conflict_markers content)
      ∧ ∀ r ∈ parse_conflict_markers content,
          r.start < r.middle ∧ r.middle < r.endIdx := by
  have h := parseFrom_chained ((splitlines content).length + 1) 0 (splitlines content) 0
  rw [show parse_conflict_markers content
      = parseFrom ((splitlines content).length + 1) 0 (splitlines content) 0 from rfl]
  exact ⟨RegionsChained.pairwise h, fun r hr => ⟨(RegionsChained.mem h r hr).2.1,
    (RegionsChained.mem h r hr).2.2.1⟩⟩

theorem claim_C8_parse_invariants_witness :
    List.Pairwise (fun a b => a.start < b.start ∧ a.endIdx < b.start)
        (parse_conflict_markers sampleDoc)
      ∧ ((0 : Int) < 2 ∧ (2 : Int) < 4) :=
  ⟨(claim_C8_parse_invariants sampleDoc).1,
    by
      have h := (claim_C8_parse_invariants sampleDoc).2
        { start := 0, middle := 2, endIdx := 4, base_content := [],
          local_content := ["a"], remote_content := ["b"], conflict_id := 0 }
        (by decide)
      simpa using h⟩

/-! ## Resolve-all machinery -/

/-- A single resolution never changes the resolved flag of any other
position. -/
theorem resolve_single_isResolved_other (st : AppState) (k : Nat) (res : String)
    (j : Nat) (hne : j ≠ k) :
    ((resolve_single_conflict st k res).current_conflicts[j]?).map
        (fun c => c.is_resolved)
      = (st.current_conflicts[j]?).map (fun c => c.is_resolved) := by
  cases hc : st.current_conflicts[k]? with
  | none => simp [resolve_single_conflict, hc]
  | some c =>
    simp only [resolve_single_conflict, update_working_copy_with_resolution, hc]
    simp only [List.getElem?_map, List.getElem?_set, Ne.symm hne, if_false, reduceIte]
    cases hj : st.current_conflicts[j]? with
    | none => simp
    | some cj =>
      simp only [Option.map_some']
      by_cases hcond : cj.conflict_id ≠ c.conflict_id ∧ cj.start > c.endIdx <;> simp [hcond]

theorem resolveStep_length (v : String) (s : AppState) (k : Nat) :
    (resolveStep v s k).current_conflicts.length = s.current_conflicts.length := by
  cases hc : s.current_conflicts[k]? with
  | none => simp [resolveStep, hc]
  | some c =>
    by_cases hr : c.is_resolved <;> simp [resolveStep, hc, hr, resolve_single_length]

/-- A resolved position stays resolved across any later loop step. -/
theorem resolveStep_keeps_resolved (v : String) (s : AppState) (k j : Nat)
    (c : ConflictMarkers) (hj : s.current_conflicts[j]? = some c)
    (hres : c.is_resolved = true) :
    ∃ c', (resolveStep v s k).current_conflicts[j]? = some c'
      ∧ c'.is_resolved = true := by
  cases hc : s.current_conflicts[k]? with
  | none => exact ⟨c, by simp [resolveStep, hc, hj], hres⟩
  | some ck =>
    by_cases hr : ck.is_resolved
    · exact ⟨c, by simp [resolveStep, hc, hr, hj], hres⟩
    · have hne : j ≠ k := by
        intro h
        rw [h, hc] at hj
        have hck : ck = c := Option.some_inj.mp hj
        rw [hck] at hr
        exact hr hres
      have hpres := resolve_single_isResolved_other s k v j hne
      rw [hj] at hpres
      simp only [Option.map_some'] at hpres
      rcases Option.map_eq_some'.mp hpres with ⟨c', hc', hflag⟩
      refine ⟨c', ?_, by rw [hflag, hres]⟩
      simp [resolveStep, hc, hr, hc']

/-- A resolved position stays resolved across the rest of the loop. -/
theorem foldl_keeps_resolved (v : String) (ks : List Nat) (s : AppState) (j : Nat)
    (c : ConflictMarkers) (hj : s.current_conflicts[j]? = some c)
    (hres : c.is_resolved = true) :
    ∃ c', (ks.foldl (resolveStep v) s).current_conflicts[j]? = some c'
      ∧ c'.is_resolved = true := by
  induction ks generalizing s c with
  | nil => exact ⟨c, hj, hres⟩
  | cons k ks ih =>
    rcases resolveStep_keeps_resolved v s k j c hj hres with ⟨c', hj', hres'⟩
    rw [List.foldl_cons]
    exact ih (resolveStep v s k) c' hj' hres'

/-- After the loop visits every position of `ks`, each of them is
resolved. -/
theorem foldl_resolves_all (v : String) (ks : List Nat) (s : AppState)
    (hlt : ∀ k ∈ ks, k < s.current_conflicts.length) :
    ∀ j ∈ ks, ∃ c, ((ks.foldl (resolveStep v) s).current_conflicts[j]?) = some c
      ∧ c.is_resolved = true := by
  induction ks generalizing s with
  | nil => intro j hj; cases hj
  | cons k ks ih =>
    intro j hj
    rw [List.foldl_cons]
    cases hj with
    | head =>
      have hk : k < s.current_conflicts.length := hlt k (List.mem_cons_self k ks)
      cases hc : s.current_conflicts[k]? with
      | none =>
        rw [List.getElem?_eq_none_iff] at hc
        omega
      | some cj =>
        by_cases hr : cj.is_resolved
        · have : resolveStep v s k = s := by simp [resolveStep, hc, hr]
          rw [this]
          exact foldl_keeps_resolved v ks s k cj hc hr
        · have hstep : resolveStep v s k = resolve_single_conflict s k v := by
            simp [resolveStep, hc, hr]
          rw [hstep]
          have hself := resolve_single_getElem_self s k v cj hc
          exact foldl_keeps_resolved v ks _ k _ hself rfl
    | tail _ hj' =>
      refine ih (resolveStep v s k) ?_ j hj'
      intro k' hk'
      rw [resolveStep_length]
      exact hlt k' (List.mem_cons_of_mem _ hk')

/-- While every listed position is unresolved and the positions are
distinct, the loop body never takes its skip branch: the guarded fold
equals the plain fold that resolves each position in order. -/
theorem foldl_resolveStep_eq_plain (v : String) (ks : List Nat) (s : AppState)
    (hnd : ks.Nodup)
    (hunres : ∀ k ∈ ks, ∃ c, s.current_conflicts[k]? = some c ∧ c.is_resolved = false) :
    ks.foldl (resolveStep v) s
      = ks.foldl (fun s' k => resolve_single_conflict s' k v) s := by
  induction ks generalizing s with
  | nil => rfl
  | cons k ks ih =>
    rcases hunres k (List.mem_cons_self k ks) with ⟨c, hc, hcf⟩
    have hstep : resolveStep v s k = resolve_single_conflict s k v := by
      simp [resolveStep, hc, hcf]
    rw [List.foldl_cons, List.foldl_cons, hstep]
    refine ih (resolve_single_conflict s k v) (List.Nodup.of_cons hnd) ?_
    intro k' hk'
    have hne : k' ≠ k := by
      intro h
      rw [h] at hk'
      exact (List.nodup_cons.mp hnd).1 hk'
    rcases hunres k' (List.mem_cons_of_mem _ hk') with ⟨c', hc', hcf'⟩
    have hpres := resolve_single_isResolved_other s k v k' hne
    rw [hc'] at hpres
    simp only [Option.map_some'] at hpres
    rcases Option.map_eq_some'.mp hpres with ⟨c'', hc'', hflag⟩
    exact ⟨c'', hc'', by rw [hflag, hcf']⟩

/-- Every region of a freshly loaded state is present and unresolved. -/
theorem load_all_unresolved (content : String) :
    ∀ k ∈ List.range (load_conflicted_file content).current_conflicts.length,
      ∃ c, (load_conflicted_file content).current_conflicts[k]? = some c
        ∧ c.is_resolved = false := by
  intro k hk
  rw [List.mem_range] at hk
  refine ⟨(load_conflicted_file content).current_conflicts[k], List.getElem?_eq_getElem hk, ?_⟩
  have hchain := parseFrom_chained ((splitlines content).length + 1) 0 (splitlines content) 0
  have hmem : (load_conflicted_file content).current_conflicts[k]
      ∈ parse_conflict_markers content := by
    have : (load_conflicted_file content).current_conflicts
        = parse_conflict_markers content := by
      simp [load_conflicted_file]
    rw [← this]
    exact List.getElem_mem hk
  exact (RegionsChained.mem hchain _ hmem).2.2.2

/-- C4: on a freshly loaded document, `resolve_with_version` resolves
exactly the (all currently unresolved) regions: it equals the plain fold
that resolves each list position individually in order, the region list
it walks is in strictly ascending `start` order, and afterwards every
region is resolved.  (Positions already resolved are skipped by the loop
body `resolveStep` by definition.) -/
theorem claim_C4_resolve_all_ascending (content : String) (version : String) :
    resolve_with_version version (load_conflicted_file content)
        = (List.range (load_conflicted_file content).current_conflicts.length).foldl
            (fun s k => resolve_single_conflict s k version) (load_conflicted_file content)
      ∧ List.Pairwise (fun a b => a.start < b.start)
          (load_conflicted_file content).current_conflicts
      ∧ ∀ k, k < (load_conflicted_file content).current_conflicts.length →
          ∃ c, (resolve_with_version version
                (load_conflicted_file content)).current_conflicts[k]? = some c
            ∧ c.is_resolved = true := by
  have hchain := parseFrom_chained ((splitlines content).length + 1) 0 (splitlines content) 0
  have hlcc : (load_conflicted_file content).current_conflicts
      = parse_conflict_markers content := by
    simp [load_conflicted_file]
  refine ⟨?_, ?_, ?_⟩
  · by_cases hemp : (load_conflicted_file content).current_conflicts.isEmpty
    · rw [List.isEmpty_iff] at hemp
      rw [resolve_with_version, if_pos (by rw [hemp]; rfl), hemp]
      rfl
    · rw [resolve_with_version, if_neg (by rw [Bool.not_eq_true]; exact Bool.not_eq_true _ ▸ hemp)]
      exact foldl_resolveStep_eq_plain version _ _ (List.nodup_range _)
        (load_all_unresolved content)
  · rw [hlcc]
    exact (RegionsChained.pairwise hchain).imp (fun h => h.1)
  · intro k hk
    by_cases hemp : (load_conflicted_file content).current_conflicts.isEmpty
    · rw [List.isEmpty_iff] at hemp
      rw [hemp] at hk
      simp at hk
    · rw [resolve_with_version, if_neg (by rw [Bool.not_eq_true]; exact Bool.not_eq_true _ ▸ hemp)]
      exact foldl_resolves_all version _ _
        (fun k' hk' => List.mem_range.mp hk') k (List.mem_range.mpr hk)

theorem claim_C4_resolve_all_ascending_witness :
    resolve_with_version "remote" (load_conflicted_file sampleDoc)
        = (List.range (load_conflicted_file sampleDoc).current_conflicts.length).foldl
            (fun s k => resolve_single_conflict s k "remote") (load_conflicted_file sampleDoc)
      ∧ (∃ c, (resolve_with_version "remote"
            (load_conflicted_file sampleDoc)).current_conflicts[0]? = some c
          ∧ c.is_resolved = true) :=
  ⟨(claim_C4_resolve_all_ascending sampleDoc "remote").1,
    (claim_C4_resolve_all_ascending sampleDoc "remote").2.2 0 (by decide)⟩

/-! ## Parser exactness on well-formed documents -/

theorem takeWhile_append_stop (p : String → Bool) (xs : List String)
    (hxs : ∀ x ∈ xs, p x = true) (y : String) (ys : List String) (hy : p y = false) :
    ((xs ++ y :: ys).takeWhile p) = xs := by
  induction xs with
  | nil =>
    rw [List.nil_append, List.takeWhile_cons_of_neg (by simp [hy])]
  | cons a xs ih =>
    rw [List.cons_append, List.takeWhile_cons_of_pos (hxs a (List.mem_cons_self a xs)),
      ih (fun x hx => hxs x (List.mem_cons_of_mem _ hx))]

theorem dropWhile_append_stop (p : String → Bool) (xs : List String)
    (hxs : ∀ x ∈ xs, p x = true) (y : String) (ys : List String) (hy : p y = false) :
    ((xs ++ y :: ys).dropWhile p) = y :: ys := by
  induction xs with
  | nil =>
    rw [List.nil_append, List.dropWhile_cons_of_neg (by simp [hy])]
  | cons a xs ih =>
    rw [List.cons_append, List.dropWhile_cons_of_pos (hxs a (List.mem_cons_self a xs)),
      ih (fun x hx => hxs x (List.mem_cons_of_mem _ hx))]

/-- Members of a `dropWhile` tail are members of the original list. -/
theorem mem_of_dropWhile_cons {p : String → Bool} {xs : List String} {y : String}
    {ys : List String} (h : xs.dropWhile p = y :: ys) :
    y ∈ xs ∧ ∀ x ∈ ys, x ∈ xs := by
  have hsub : y :: ys ⊆ xs := by
    rw [← h]
    exact (List.dropWhile_sublist p).subset
  exact ⟨hsub (List.mem_cons_self y ys), fun x hx => hsub (List.mem_cons_of_mem _ hx)⟩

/-- Text without start markers yields no regions. -/
theorem parseFrom_no_start (fuel cid : Nat) (ls : List String) (i : Nat)
    (h : ∀ l ∈ ls, isStartMarker l = false) : parseFrom fuel cid ls i = [] := by
  induction fuel generalizing cid ls i with
  | zero => rfl
  | succ f ih =>
    cases ls with
    | nil => rfl
    | cons l ls' =>
      rw [parseFrom]
      rw [if_neg (by simp [h l (List.mem_cons_self l ls')])]
      exact ih cid ls' (i + 1) (fun x hx => h x (List.mem_cons_of_mem _ hx))

/-- Text without end markers yields no regions: every started block stays
unterminated and is silently discarded. -/
theorem parseFrom_no_end (fuel cid : Nat) (ls : List String) (i : Nat)
    (h : ∀ l ∈ ls, isEndMarker l = false) : parseFrom fuel cid ls i = [] := by
  induction fuel generalizing cid ls i with
  | zero => rfl
  | succ f ih =>
    cases ls with
    | nil => rfl
    | cons l ls' =>
      have hls' : ∀ x ∈ ls', isEndMarker x = false :=
        fun x hx => h x (List.mem_cons_of_mem _ hx)
      rw [parseFrom]
      by_cases hs : isStartMarker l
      · rw [if_pos hs]
        cases hd1 : ls'.dropWhile notSep with
        | nil => rfl
        | cons s1 rest1 =>
          dsimp only
          obtain ⟨hs1mem, hrest1mem⟩ := mem_of_dropWhile_cons hd1
          by_cases hb : isBaseMarker s1
          · rw [if_pos hb]
            cases hd2 : rest1.dropWhile notMid with
            | nil => rfl
            | cons s2 rest2 =>
              dsimp only
              obtain ⟨hs2mem, hrest2mem⟩ := mem_of_dropWhile_cons hd2
              by_cases hm : isMidMarker s2
              · rw [if_pos hm]
                cases hd3 : rest2.dropWhile notEnd with
                | nil => rfl
                | cons s3 rest3 =>
                  dsimp only
                  obtain ⟨hs3mem, hrest3mem⟩ := mem_of_dropWhile_cons hd3
                  have : isEndMarker s3 = false :=
                    hls' s3 (hrest1mem _ (hrest2mem _ hs3mem))
                  rw [if_neg (by simp [this])]
                  exact ih _ _ _ (fun x hx =>
                    hls' x (hrest1mem _ (hrest2mem _ (hrest3mem _ hx))))
              · rw [if_neg hm]
                exact ih _ _ _ (fun x hx => hls' x (hrest1mem _ (hrest2mem _ hx)))
          · rw [if_neg hb]
            by_cases hm : isMidMarker s1
            · rw [if_pos hm]
              cases hd3 : rest1.dropWhile notEnd with
              | nil => rfl
              | cons s3 rest3 =>
                dsimp only
                obtain ⟨hs3mem, hrest3mem⟩ := mem_of_dropWhile_cons hd3
                have : isEndMarker s3 = false := hls' s3 (hrest1mem _ hs3mem)
                rw [if_neg (by simp [this])]
                exact ih _ _ _ (fun x hx => hls' x (hrest1mem _ (hrest3mem _ hx)))
            · rw [if_neg hm]
              exact ih _ _ _ (fun x hx => hls' x (hrest1mem _ hx))
      · rw [if_neg hs]
        exact ih cid ls' (i + 1) hls'

/-- Scanning a well-formed block with no base section emits exactly its
region and continues right after its end marker. -/
theorem parseFrom_block_none (fuel cid i : Nat) (b : RawBlock) (hwf : b.wf)
    (hbs : b.baseSec = none) (Z : List String) :
    parseFrom (fuel + 1) cid (b.render ++ Z) i
      = mkConflict i (i + 1 + b.localLines.length + b.baseLen)
          (i + 1 + b.localLines.length + b.baseLen + 1 + b.remoteLines.length)
          b.baseContent b.localLines b.remoteLines cid
        :: parseFrom fuel (cid + 1) Z
            (i + 1 + b.localLines.length + b.baseLen + 1 + b.remoteLines.length + 1) := by
  obtain ⟨hstart, hmid, hmidnb, hend, hloc, hbase, hrem⟩ := hwf
  have hrender : b.render ++ Z
      = b.startLine :: (b.localLines ++ b.midLine :: (b.remoteLines ++ b.endLine :: Z)) := by
    simp [RawBlock.render, hbs]
  have hq : ∀ x ∈ b.localLines, notSep x = true := fun x hx => by
    simp [notSep, (hloc x hx).1, (hloc x hx).2]
  have hstop : notSep b.midLine = false := by simp [notSep, hmid]
  have hq2 : ∀ x ∈ b.remoteLines, notEnd x = true := fun x hx => by
    simp [notEnd, hrem x hx]
  have hstop2 : notEnd b.endLine = false := by simp [notEnd, hend]
  rw [hrender, parseFrom, if_pos hstart]
  rw [takeWhile_append_stop _ _ hq _ _ hstop, dropWhile_append_stop _ _ hq _ _ hstop]
  dsimp only
  rw [if_neg (by simp [hmidnb]), if_pos hmid]
  rw [takeWhile_append_stop _ _ hq2 _ _ hstop2, dropWhile_append_stop _ _ hq2 _ _ hstop2]
  dsimp only
  rw [if_pos hend]
  simp only [RawBlock.baseLen, RawBlock.baseContent, hbs]
  congr 1 <;>
    first
      | (simp [mkConflict, ConflictMarkers.mk.injEq] <;> omega)
      | (congr 1; omega)

theorem parseFrom_block_some (fuel cid i : Nat) (b : RawBlock) (hwf : b.wf)
    (bl : String) (bs : List String) (hbs : b.baseSec = some (bl, bs)) (Z : List String) :
    parseFrom (fuel + 1) cid (b.render ++ Z) i
      = mkConflict i (i + 1 + b.localLines.length + b.baseLen)
          (i + 1 + b.localLines.length + b.baseLen + 1 + b.remoteLines.length)
          b.baseContent b.localLines b.remoteLines cid
        :: parseFrom fuel (cid + 1) Z
            (i + 1 + b.localLines.length + b.baseLen + 1 + b.remoteLines.length + 1) := by
  obtain ⟨hstart, hmid, hmidnb, hend, hloc, hbase, hrem⟩ := hwf
  rw [hbs] at hbase
  obtain ⟨hbl, hbsl⟩ := hbase
  have hrender : b.render ++ Z
      = b.startLine :: (b.localLines
          ++ bl :: (bs ++ b.midLine :: (b.remoteLines ++ b.endLine :: Z))) := by
    simp [RawBlock.render, hbs]
  have hq : ∀ x ∈ b.localLines, notSep x = true := fun x hx => by
    simp [notSep, (hloc x hx).1, (hloc x hx).2]
  have hstop : notSep bl = false := by simp [notSep, hbl]
  have hq3 : ∀ x ∈ bs, notMid x = true := fun x hx => by simp [notMid, hbsl x hx]
  have hstop3 : notMid b.midLine = false := by simp [notMid, hmid]
  have hq2 : ∀ x ∈ b.remoteLines, notEnd x = true := fun x hx => by
    simp [notEnd, hrem x hx]
  have hstop2 : notEnd b.endLine = false := by simp [notEnd, hend]
  rw [hrender, parseFrom, if_pos hstart]
  rw [takeWhile_append_stop _ _ hq _ _ hstop, dropWhile_append_stop _ _ hq _ _ hstop]
  dsimp only
  rw [if_pos hbl]
  rw [takeWhile_append_stop _ _ hq3 _ _ hstop3, dropWhile_append_stop _ _ hq3 _ _ hstop3]
  dsimp only
  rw [if_pos hmid]
  rw [takeWhile_append_stop _ _ hq2 _ _ hstop2, dropWhile_append_stop _ _ hq2 _ _ hstop2]
  dsimp only
  rw [if_pos hend]
  simp only [RawBlock.baseLen, RawBlock.baseContent, hbs]
  congr 1 <;>
    first
      | (simp [mkConflict, ConflictMarkers.mk.injEq] <;> omega)
      | (congr 1; omega)

theorem RawBlock.render_length (b : RawBlock) :
    b.render.length = 1 + b.localLines.length + b.baseLen + 1 + b.remoteLines.length + 1 := by
  rcases hbs : b.baseSec with _ | ⟨bl, bs⟩ <;>
    simp [RawBlock.render, RawBlock.baseLen, hbs] <;> omega

theorem parseFrom_gap (gap : List String) (hgap : ∀ g ∈ gap, isStartMarker g = false) :
    ∀ (fuel cid i : Nat) (ys : List String), gap.length < fuel →
      parseFrom fuel cid (gap ++ ys) i
        = parseFrom (fuel - gap.length) cid ys (i + gap.length) := by
  induction gap with
  | nil => intro fuel cid i ys hf; simp
  | cons g gap ih =>
    intro fuel cid i ys hf
    cases fuel with
    | zero => omega
    | succ f =>
      rw [List.cons_append, parseFrom,
        if_neg (by simp [hgap g (List.mem_cons_self g gap)])]
      have e1 : (f + 1) - (g :: gap).length = f - gap.length := by simp
      have e2 : i + (g :: gap).length = (i + 1) + gap.length := by simp; omega
      rw [e1, e2]
      exact ih (fun x hx => hgap x (List.mem_cons_of_mem _ hx)) f cid (i + 1) ys
        (by simp at hf; omega)

theorem parseFrom_renderDoc (chunks : List (List String × RawBlock)) (trail : List String)
    (hch : ∀ p ∈ chunks, (∀ g ∈ p.1, isStartMarker g = false) ∧ p.2.wf)
    (htrail : ∀ fuel cid i, parseFrom fuel cid trail i = []) :
    ∀ (fuel cid i : Nat), (renderDoc chunks trail).length < fuel →
      parseFrom fuel cid (renderDoc chunks trail) i = expectedRegions i cid chunks := by
  induction chunks with
  | nil =>
    intro fuel cid i hf
    simp [renderDoc, expectedRegions, htrail]
  | cons p chunks ih =>
    obtain ⟨gap, b⟩ := p
    intro fuel cid i hf
    obtain ⟨hgap, hwf⟩ := hch (gap, b) (List.mem_cons_self _ _)
    have hch' : ∀ p ∈ chunks, (∀ g ∈ p.1, isStartMarker g = false) ∧ p.2.wf :=
      fun p hp => hch p (List.mem_cons_of_mem _ hp)
    rw [renderDoc] at hf ⊢
    simp only [List.length_append] at hf
    have hrl := RawBlock.render_length b
    rw [List.append_assoc]
    rw [parseFrom_gap gap hgap fuel cid i _ (by omega)]
    obtain ⟨f', hf'⟩ : ∃ f', fuel - gap.length = f' + 1 := ⟨fuel - gap.length - 1, by omega⟩
    rw [hf']
    have hZf : (renderDoc chunks trail).length < f' := by omega
    rcases hbs : b.baseSec with _ | ⟨bl, bs⟩
    · rw [parseFrom_block_none f' (cid) (i + gap.length) b hwf hbs (renderDoc chunks trail)]
      rw [ih hch' f' (cid + 1) _ hZf]
      rw [expectedRegions]
    · rw [parseFrom_block_some f' (cid) (i + gap.length) b hwf bl bs hbs
        (renderDoc chunks trail)]
      rw [ih hch' f' (cid + 1) _ hZf]
      rw [expectedRegions]

/-- C2, in three parts.  (1) For every text whose line decomposition is a
well-formed document of N non-overlapping conflict blocks (gaps with no
start markers, then blocks, then any trailing lines that complete no
region), `parse_conflict_markers` returns exactly the N expected
regions: in document order, ids `0..N-1` assigned sequentially, marker
indices equal to the line positions of the marker lines, and
local/base/remote line lists equal to the captured content.  (2) A text
with no start-marker line parses to the empty list.  (3) Text containing
no end-marker line — in particular any unterminated or malformed marker
sequence cut off before its end marker — produces no region at all and
no error (the scan is total). -/
theorem claim_C2_parse_wellformed :
    (∀ (content : String) (chunks : List (List String × RawBlock)) (trail : List String),
        (∀ p ∈ chunks, (∀ g ∈ p.1, isStartMarker g = false) ∧ p.2.wf) →
        (∀ l ∈ trail, isEndMarker l = false) →
        splitlines content = renderDoc chunks trail →
        parse_conflict_markers content = expectedRegions 0 0 chunks)
      ∧ (∀ content : String, (∀ l ∈ splitlines content, isStartMarker l = false) →
            parse_conflict_markers content = [])
      ∧ (∀ (fuel cid : Nat) (ls : List String) (i : Nat),
            (∀ l ∈ ls, isEndMarker l = false) → parseFrom fuel cid ls i = []) := by
  refine ⟨?_, ?_, ?_⟩
  · intro content chunks trail hch htrailend hsplit
    simp only [parse_conflict_markers]
    rw [hsplit]
    exact parseFrom_renderDoc chunks trail hch
      (fun fuel cid i => parseFrom_no_end fuel cid trail i htrailend)
      _ 0 0 (by omega)
  · intro content h
    exact parseFrom_no_start _ _ _ _ h
  · exact parseFrom_no_end

theorem claim_C2_parse_wellformed_witness :
    parse_conflict_markers
        "x\n<<<<<<< HEAD\na\n||||||| base\no\n=======\nb\n>>>>>>> branch\ny\n<<<<<<< HEAD\nc\n=======\nd\n>>>>>>> br\n<<<<<<< oops\nz"
      = expectedRegions 0 0
          [(["x"], ⟨"<<<<<<< HEAD", ["a"], some ("||||||| base", ["o"]), "=======", ["b"],
              ">>>>>>> branch"⟩),
            (["y"], ⟨"<<<<<<< HEAD", ["c"], none, "=======", ["d"], ">>>>>>> br"⟩)]
      ∧ expectedRegions 0 0
          [(["x"], ⟨"<<<<<<< HEAD", ["a"], some ("||||||| base", ["o"]), "=======", ["b"],
              ">>>>>>> branch"⟩),
            (["y"], ⟨"<<<<<<< HEAD", ["c"], none, "=======", ["d"], ">>>>>>> br"⟩)]
          = [mkConflict 1 5 7 ["o"] ["a"] ["b"] 0, mkConflict 9 11 13 [] ["c"] ["d"] 1] :=
  ⟨claim_C2_parse_wellformed.1 _
      [(["x"], ⟨"<<<<<<< HEAD", ["a"], some ("||||||| base", ["o"]), "=======", ["b"],
          ">>>>>>> branch"⟩),
        (["y"], ⟨"<<<<<<< HEAD", ["c"], none, "=======", ["d"], ">>>>>>> br"⟩)]
      ["<<<<<<< oops", "z"]
      (by simp +decide [RawBlock.wf]) (by decide) (by decide),
    by decide⟩
